import Mathlib

/-!
Verification development for the data-loading core of the Billingegroup/utils
repository.  The embedding covers:

* `src/utils/load_data.py` — `load_data` with its inner line classifier
  `countcolumnsvalues`, the block scan loop, and the orchestration around
  `numpy.loadtxt`;
* `src/utils-long/loaddata.py` — `_parsecolumnid` (column-spec resolution with
  range expansion) and `_loadplotdata` (row-index alias substitution).

Modelling conventions:

* Python byte strings are `List Char` (the files under scrutiny are ASCII, so
  one char is one byte).
* A physical line of the input file is a `Line`: the list of fields produced by
  `line.split(delimiter)` together with the byte length of the raw line.  The
  split itself is not re-implemented; the scanner's trailing-blank-field
  trimming, which acts on the split result, is embedded faithfully.
* Python `float(...)` conversion is an explicit parameter
  `conv : List Char → Option Int`: the claims under study depend only on which
  fields convert successfully, never on fractional values, so table entries are
  modelled as integers.  `convInt` below is the concrete instantiation used for
  witnesses (optional-sign integer literals, which `float` accepts).
* Fallible Python code (raising `ValueError`/`IndexError`) is modelled with
  `Option`/`Except`.
-/

namespace BGUtils

instance {ε α : Type} [DecidableEq ε] [DecidableEq α] :
    DecidableEq (Except ε α) := fun x y =>
  match x, y with
  | .ok a, .ok b =>
    if h : a = b then .isTrue (by rw [h])
    else .isFalse (fun hh => h (Except.ok.inj hh))
  | .error a, .error b =>
    if h : a = b then .isTrue (by rw [h])
    else .isFalse (fun hh => h (Except.error.inj hh))
  | .ok _, .error _ => .isFalse (fun hh => Except.noConfusion hh)
  | .error _, .ok _ => .isFalse (fun hh => Except.noConfusion hh)

/-! ## Python semantics helpers -/

/-- Python list indexing `xs[i]`: a negative index counts from the end, an
out-of-range index raises `IndexError` (modelled as `none`). -/
def pyGet (xs : List α) (i : Int) : Option α :=
  if 0 ≤ i then xs.get? i.toNat
  else if -i ≤ (xs.length : Int) then xs.get? (xs.length - (-i).toNat)
  else none

/-- Python `str.strip()` produces the empty string exactly when every character
is whitespace; `not words[-1].strip()` therefore tests this predicate. -/
def isBlankStr (s : List Char) : Bool := s.all (fun c => c.isWhitespace)

/-- Python `str.strip()`: drop leading and trailing whitespace. -/
def pyStrip (s : List Char) : List Char :=
  ((s.dropWhile (fun c => c.isWhitespace)).reverse.dropWhile
    (fun c => c.isWhitespace)).reverse

/-- The loop `while words and not words[-1].strip(): words.pop(-1)` from
`countcolumnsvalues`: remove trailing all-whitespace fields. -/
def stripTrailingBlanks (ws : List (List Char)) : List (List Char) :=
  (ws.reverse.dropWhile isBlankStr).reverse

/-- Python tuple comparison `(a1, a2) < (b1, b2)`: lexicographic. -/
def pyTupLt (a b : Int × Int) : Bool :=
  if a.1 < b.1 then true
  else if a.1 = b.1 then decide (a.2 < b.2)
  else false

/-- Python `min` over a nonempty list (`min` of an empty list raises; the
theorems carry nonemptiness hypotheses). -/
def pyMin : List Int → Int
  | [] => 0
  | x :: xs => xs.foldl min x

/-- Python `max` over a nonempty list. -/
def pyMax : List Int → Int
  | [] => 0
  | x :: xs => xs.foldl max x

/-- Python `range(n)` as a list of ints (empty for `n ≤ 0`). -/
def pyRangeNat (n : Int) : List Int :=
  (List.range n.toNat).map (fun k => (k : Int))

/-- The list comprehension `[words[i] for i in usecols]`: `none` models the
`IndexError` raised by an unaddressable index. -/
def selectFields (words : List (List Char)) : List Int → Option (List (List Char))
  | [] => some []
  | i :: is =>
    match pyGet words i, selectFields words is with
    | some w, some ws => some (w :: ws)
    | _, _ => none

/-- `map(float, fields)` (Python 2: eager): `none` models the `ValueError`
raised when some field does not convert. -/
def convertAll (conv : List Char → Option Int) :
    List (List Char) → Option (List Int)
  | [] => some []
  | f :: fs =>
    match conv f, convertAll conv fs with
    | some v, some vs => some (v :: vs)
    | _, _ => none

/-! ## `src/utils/load_data.py` -/

/-- A physical input line: the fields produced by `line.split(delimiter)`
(with the final newline stripped from the last field) and the byte length
`len(line)` of the raw line. -/
structure Line where
  words : List (List Char)
  blen : Nat
deriving DecidableEq

/-- The inner function `countcolumnsvalues` of `load_data`: classify a line by
(total field count, successfully converted field count); any `IndexError` or
`ValueError` yields `(0, 0)`. -/
def countcolumnsvalues (conv : List Char → Option Int)
    (usecols : Option (List Int)) (words0 : List (List Char)) : Int × Int :=
  match usecols with
  | none =>
    match convertAll conv (stripTrailingBlanks words0) with
    | none => (0, 0)
    | some vs =>
      (((stripTrailingBlanks words0).length : Int), (vs.length : Int))
  | some uc =>
    match selectFields (stripTrailingBlanks words0) uc with
    | none => (0, 0)
    | some sel =>
      match convertAll conv sel with
      | none => (0, 0)
      | some vs =>
        (((stripTrailingBlanks words0).length : Int), (vs.length : Int))

/-- The threshold `mincv` computed by `load_data`: `(1, 1)` without `usecols`,
otherwise `(max(-min(usecols), max(usecols) + 1), len(set(usecols)))` over the
resolved integer column list. -/
def mincvOf : Option (List Int) → Int × Int
  | none => (1, 1)
  | some uc => (max (-(pyMin uc)) (pyMax uc + 1), ((uc.dedup).length : Int))

/-- The scanner's transient candidate block: start byte offset, start line
index (the offset is the sum of the byte lengths of the preceding lines),
classification pair `ncvblock`, and row count so far.  The source keeps
`start`, `ncvblock` and `nrows` as separate loop variables; `ncvblock` and
`nrows` are only ever read while `start` is set, so bundling them with `start`
is equivalent. -/
structure Cand where
  off : Nat
  idx : Nat
  ncv : Int × Int
  rows : Nat
deriving DecidableEq

/-- The `for line in fid` scan loop of `load_data`.  A non-qualifying line
(`ncv < mincv`, Python tuple comparison) discards the candidate; a qualifying
line extends the candidate when its classification matches, otherwise starts a
fresh one; the loop stops as soon as `nrows >= minrows`.  At end of stream the
current candidate — even a partial one — is returned, exactly as the source
falls out of the loop with whatever `start` holds. -/
def scanAux (classify : List (List Char) → Int × Int) (mincv : Int × Int)
    (minrows : Nat) : List Line → Option Cand → Nat → Nat → Option Cand
  | [], cand, _, _ => cand
  | l :: ls, cand, fpos, idx =>
    let ncv := classify l.words
    if pyTupLt ncv mincv then
      scanAux classify mincv minrows ls none (fpos + l.blen) (idx + 1)
    else
      let c : Cand :=
        match cand with
        | some c => if ncv = c.ncv then { c with rows := c.rows + 1 }
                    else ⟨fpos, idx, ncv, 1⟩
        | none => ⟨fpos, idx, ncv, 1⟩
      if minrows ≤ c.rows then some c
      else scanAux classify mincv minrows ls (some c) (fpos + l.blen) (idx + 1)

/-- Whole-file scan, starting before the first line with `fpos = 0`. -/
def scanBlock (classify : List (List Char) → Int × Int) (mincv : Int × Int)
    (minrows : Nat) (lines : List Line) : Option Cand :=
  scanAux classify mincv minrows lines none 0 0

/-- Total byte length of a list of lines (the scanner's `fpos` after reading
them). -/
def sumBlens (ls : List Line) : Nat := (ls.map Line.blen).sum

/-- One row of `numpy.loadtxt`: select the `usecols` fields and convert each;
`none` models the exception loadtxt raises on a bad row. -/
def loadtxtRow (conv : List Char → Option Int) (uc : List Int)
    (words : List (List Char)) : Option (List Int) :=
  match selectFields words uc with
  | some sel => convertAll conv sel
  | none => none

/-- Model of `numpy.loadtxt(fid, usecols=uc)` reading from the seek position to
the end of the file: blank lines are skipped, every other line must convert on
the selected columns, otherwise the call raises (modelled as `.error`). -/
def loadtxtM (conv : List Char → Option Int) (uc : List Int) :
    List Line → Except (List Char) (List (List Int))
  | [] => .ok []
  | l :: ls =>
    if l.words.isEmpty then loadtxtM conv uc ls
    else
      match loadtxtRow conv uc l.words with
      | some r => (loadtxtM conv uc ls).map (fun rs => r :: rs)
      | none => .error ("could not convert string to float".toList)

/-- `load_data(filename, minrows, usecols=..., ...)` from
`src/utils/load_data.py`.  String entries of `usecols` are resolved to integer
indices by `_resolveStringColumns`, which is not among the embedded sources;
the model therefore takes the already-resolved integer column list.  When the
scan leaves no candidate the source returns `array([], dtype=float)` — the
empty table, modelled as `.ok []`.  Otherwise it seeks to the candidate's
start offset (equivalently: drops the preceding lines) and calls `loadtxt`,
with `kwargs.setdefault('usecols', range(ncvblock[0]))` supplying the full
column range of the detected block when `usecols` was not given. -/
def load_data (conv : List Char → Option Int) (lines : List Line)
    (minrows : Nat) (usecols : Option (List Int)) :
    Except (List Char) (List (List Int)) :=
  match scanBlock (fun ws => countcolumnsvalues conv usecols ws)
      (mincvOf usecols) minrows lines with
  | none => .ok []
  | some c =>
    loadtxtM conv (usecols.getD (pyRangeNat c.ncv.1)) (lines.drop c.idx)

/-- Concrete conversion used by witnesses: `float` restricted to
optional-sign integer literals (with surrounding whitespace), a valid
instantiation of the conversion collaborator. -/
def digitsToNat (ds : List Char) : Nat :=
  ds.foldl (fun n c => 10 * n + (c.toNat - '0'.toNat)) 0

/-- `^[+-]?\d+$` — the regular expression `mxint` of `_parsecolumnid`. -/
def mxint (w : List Char) : Bool :=
  match w with
  | [] => false
  | c :: rest =>
    let ds := if c = '+' ∨ c = '-' then rest else w
    !ds.isEmpty && ds.all (fun d => d.isDigit)

/-- Python `int(w)` for a token matched by `mxint`. -/
def intOfTok (w : List Char) : Int :=
  match w with
  | '-' :: ds => -(digitsToNat ds : Int)
  | '+' :: ds => (digitsToNat ds : Int)
  | ds => (digitsToNat ds : Int)

/-- Witness-level `float`: accepts optional-sign integer literals. -/
def convInt (s : List Char) : Option Int :=
  let t := pyStrip s
  if mxint t then some (intOfTok t) else none

/-! ## `src/utils-long/loaddata.py`: `_parsecolumnid` -/

/-- Python `str.split(sep)` for a one-character separator (no maxsplit). -/
def splitOnChar (c : Char) : List Char → List (List Char)
  | [] => [[]]
  | x :: xs =>
    if x = c then [] :: splitOnChar c xs
    else
      match splitOnChar c xs with
      | [] => [[x]]
      | p :: ps => (x :: p) :: ps

/-- Python `w.count(c)` for a single character. -/
def charCount (c : Char) (w : List Char) : Nat := w.countP (fun x => x = c)

/-- An entry of a column-identifier list: after `_parsecolumnid`, entries are
integers or strings (column names and the row-index alias `"."`). -/
inductive PyTok where
  | int (i : Int)
  | str (s : List Char)
deriving DecidableEq

/-- Is the entry an integer index? -/
def isIntTok : PyTok → Bool
  | .int _ => true
  | .str _ => false

/-- The possible shapes of the `sx` argument of `_parsecolumnid`: `None`, a
single integer, a string, or an iterable of already-typed items. -/
inductive PyColArg where
  | none
  | int (i : Int)
  | str (s : List Char)
  | list (xs : List PyTok)

/-- `numpy.arange(a, b, c)` as an iteration: starting from `a`, emit values
while they lie strictly on the `b` side, advancing by `c`.  The fuel bound is
large enough for any nonzero step (at most `|b - a|` steps are taken). -/
def arangeAux : Nat → Int → Int → Int → List Int
  | 0, _, _, _ => []
  | n + 1, a, b, c =>
    if (0 < c ∧ a < b) ∨ (c < 0 ∧ b < a) then a :: arangeAux n (a + c) b c
    else []

/-- `numpy.r_[slice(a, b, c)]` for integer bounds and a nonzero integer step:
equivalent to `numpy.arange(a, b, c)`. -/
def pyArange (a b c : Int) : List Int :=
  arangeAux ((if 0 < c then b - a else a - b).toNat + 1) a b c

/-- The error message `"invalid column identifier %s" % repr(w)`; `repr` of a
plain Python string wraps it in single quotes. -/
def invalidMsg (w : List Char) : List Char :=
  "invalid column identifier ".toList ++ ('\'' :: (w ++ ['\'']))

/-- Expansion of a validated range token: `a1` is the list of optional slice
pieces (2 or 3 of them).  `slice(*a1)` keeps `None` defaults; `numpy.r_`
substitutes start 0 and step 1 and raises on a zero step; a missing stop makes
`_parsecolumnid` fall through to the `invalid column identifier` raise. -/
def expandRange (w : List Char) (a1 : List (Option Int)) :
    Except (List Char) (List PyTok) :=
  match a1 with
  | [s0, s1] => expandSlice w s0 s1 none
  | [s0, s1, s2] => expandSlice w s0 s1 s2
  | _ => .error (invalidMsg w)
where
  expandSlice (w : List Char) (s0 s1 s2 : Option Int) :
      Except (List Char) (List PyTok) :=
    match s1 with
    | none => .error (invalidMsg w)
    | some b =>
      if s2.getD 1 = 0 then .error ("slice step cannot be zero".toList)
      else .ok ((pyArange (s0.getD 0) b (s2.getD 1)).map PyTok.int)

/-- Classification of one token `w` by the loop body of `_parsecolumnid`:
integers pass through; tokens starting with a letter or `@`, and the literal
`"."`, are kept as strings; an optional-sign digit string becomes an integer;
a token with one or two `:` separators is range-expanded; anything else raises
`invalid column identifier`. -/
def parseTok : PyTok → Except (List Char) (List PyTok)
  | .int i => .ok [.int i]
  | .str w =>
    if (w.head?.elim false (fun c => c.isAlpha)) ∨ w.head? = some '@' ∨
        w = ['.'] then
      .ok [.str w]
    else if mxint w then .ok [.int (intOfTok w)]
    else if 1 ≤ charCount ':' w ∧ charCount ':' w ≤ 2 then
      if ((splitOnChar ':' w).map pyStrip).all (fun x => x.isEmpty || mxint x)
      then
        expandRange w (((splitOnChar ':' w).map pyStrip).map
          (fun x => if x.isEmpty then none else some (intOfTok x)))
      else .error (invalidMsg w)
    else .error (invalidMsg w)

/-- Tokenization step of `_parsecolumnid`: a string is split at commas,
stripped, and empty tokens dropped; a bare integer becomes a one-element list;
`None` stays `None`; an iterable passes through. -/
def tokensOf : PyColArg → Option (List PyTok)
  | .none => none
  | .int i => some [.int i]
  | .str s =>
    some ((((splitOnChar ',' s).map pyStrip).filter
      (fun w => !w.isEmpty)).map PyTok.str)
  | .list xs => some xs

/-- Loop of `_parsecolumnid`: `rv += parse of each token`, first failure
raises. -/
def parseToks : List PyTok → Except (List Char) (List PyTok)
  | [] => .ok []
  | t :: ts =>
    match parseTok t with
    | .ok rs => (parseToks ts).map (fun rest => rs ++ rest)
    | .error e => .error e

/-- `_parsecolumnid(sx)`: `None` or an empty spec resolves to `None` ("all
columns"); otherwise the normalized token list. -/
def _parsecolumnid (sx : PyColArg) :
    Except (List Char) (Option (List PyTok)) :=
  match tokensOf sx with
  | none => .ok none
  | some ts =>
    if ts.isEmpty then .ok none
    else (parseToks ts).map some

/-! ## `src/utils-long/loaddata.py`: `_loadplotdata` -/

/-- `[i for i, c in enumerate(uc) if c == '.']`. -/
def dotindicesAux : List PyTok → Nat → List Nat
  | [], _ => []
  | c :: cs, i =>
    if c = PyTok.str ['.'] then i :: dotindicesAux cs (i + 1)
    else dotindicesAux cs (i + 1)

/-- Positions of the row-index alias `"."` in the combined column list. -/
def dotindices (uc : List PyTok) : List Nat := dotindicesAux uc 0

/-- `([c for c in uc if c != '.'] + [0])[0]`: the first non-alias entry, or
the integer 0 when every entry is the alias. -/
def dotalias (uc : List PyTok) : PyTok :=
  match uc.filter (fun c => c ≠ PyTok.str ['.']) with
  | [] => PyTok.int 0
  | c :: _ => c

/-- `for i in dotindices: uc[i] = dotalias`. -/
def substDots (uc : List PyTok) : List PyTok :=
  (dotindices uc).foldl (fun l i => l.set i (dotalias uc)) uc

/-- One row of the fancy assignment `d[:, dotindices] = arange(nrows)`:
columns listed in `dotidx` receive the row index `r`, the rest keep their
value (`j` is the current column position). -/
def assignRowAux (dotidx : List Nat) (r : Int) : List Int → Nat → List Int
  | [], _ => []
  | v :: vs, j =>
    (if j ∈ dotidx then r else v) :: assignRowAux dotidx r vs (j + 1)

/-- `d[:, dotindices] = numpy.arange(nrows).reshape(nrows, -1)`: every listed
column is overwritten with the 0-based row counter. -/
def assignDotsAux (dotidx : List Nat) : List (List Int) → Nat → List (List Int)
  | [], _ => []
  | row :: rows, r =>
    assignRowAux dotidx (Int.ofNat r) row 0 :: assignDotsAux dotidx rows (r + 1)

/-- The substituted table of `_loadplotdata`. -/
def assignDots (d : List (List Int)) (dotidx : List Nat) : List (List Int) :=
  assignDotsAux dotidx d 0

/-- Column `j` of a table: the list of its (optional) entries, row by row. -/
def colOf (d : List (List Int)) (j : Nat) : List (Option Int) :=
  d.map (fun row => row.get? j)

/-- Modelled from the spec: the external `ColumnNameResolver` collaborator
("maps column-name strings to integer positions") that `loadData` invokes for
string entries of `usecols`; its implementation (`_resolveStringColumns`) is
not among the embedded sources, so it is a parameter `resolve`. -/
def resolveAll (resolve : List Char → Option Int) :
    List PyTok → Option (List Int)
  | [] => some []
  | .int i :: ts => (resolveAll resolve ts).map (fun is => i :: is)
  | .str s :: ts =>
    match resolve s, resolveAll resolve ts with
    | some i, some is => some (i :: is)
    | _, _ => none

/-- Body of `_loadplotdata` once `xi`/`yi` are parsed and `yi` is present
(lines 142–155 of the source): substitute the row-index alias, load with the
combined `usecols`, and overwrite the alias columns with `0..nrows-1`.  The
`loadData` call uses its default `minrows = 10`.  The final column slicing
`d[:,:nx]` / `d[:,nx:]` and squeeze produce views of this table and are not
needed by the claims. -/
def plotcore (conv : List Char → Option Int)
    (resolve : List Char → Option Int) (lines : List Line)
    (xi yi : List PyTok) : Except (List Char) (List (List Int)) :=
  match resolveAll resolve (substDots (xi ++ yi)) with
  | none => .error ("unresolved column name".toList)
  | some ucInts =>
    match load_data conv lines 10 (some ucInts) with
    | .error e => .error e
    | .ok d =>
      if d.isEmpty then .ok d
      else .ok (assignDots d (dotindices (xi ++ yi)))

/-- `_loadplotdata(filename, xi, yi)` along the explicit-`y` path: parse both
identifiers and run `plotcore`.  The `yi is None` branches (error for explicit
`x`, default first-two-columns plot otherwise) do not build the substituted
table that the claims are about; the model reports the source's error message
for the former and is not invoked on the latter. -/
def _loadplotdata (conv : List Char → Option Int)
    (resolve : List Char → Option Int) (lines : List Line)
    (sx sy : PyColArg) : Except (List Char) (List (List Int)) :=
  match _parsecolumnid sx, _parsecolumnid sy with
  | .error e, _ => .error e
  | _, .error e => .error e
  | .ok xiO, .ok yiO =>
    match yiO with
    | none => .error ("y-column must be specified for explicit x.".toList)
    | some yi => plotcore conv resolve lines (xiO.getD [PyTok.int 0]) yi

/-! ## Spec-side definitions (for refinement-style claims) -/

/-- Written from the spec's words for claim C8: a range `start:stop:step`
"expands to the integers from start (inclusive) to stop (exclusive) advancing
by the explicit step, following standard slice semantics including negative
step" — the `k`-th element is `start + k * step`, and the count is the number
of steps that stay strictly before `stop` (in the direction of `step`). -/
def sliceLen (a b c : Int) : Nat :=
  if 0 < c then ((b - a + c - 1) / c).toNat
  else ((a - b + (-c) - 1) / (-c)).toNat

/-- The explicit integer sequence of a slice, per the spec's words. -/
def sliceSpecSeq (a b c : Int) : List Int :=
  (List.range (sliceLen a b c)).map (fun k => a + Int.ofNat k * c)

/-! ## Helper lemmas: the line classifier -/

theorem convertAll_length {conv : List Char → Option Int} :
    ∀ {fs : List (List Char)} {vs : List Int},
      convertAll conv fs = some vs → vs.length = fs.length := by
  intro fs
  induction fs with
  | nil =>
    intro vs h
    simp only [convertAll, Option.some.injEq] at h
    subst h; rfl
  | cons f fs ih =>
    intro vs h
    simp only [convertAll] at h
    cases hc : conv f with
    | none => rw [hc] at h; exact absurd h (by simp)
    | some v =>
      rw [hc] at h
      cases hr : convertAll conv fs with
      | none => rw [hr] at h; exact absurd h (by simp)
      | some ws =>
        rw [hr] at h
        simp only [Option.some.injEq] at h
        subst h
        simp [ih hr]

theorem selectFields_length {ws : List (List Char)} :
    ∀ {uc : List Int} {sel : List (List Char)},
      selectFields ws uc = some sel → sel.length = uc.length := by
  intro uc
  induction uc with
  | nil =>
    intro sel h
    simp only [selectFields, Option.some.injEq] at h
    subst h; rfl
  | cons i is ih =>
    intro sel h
    simp only [selectFields] at h
    cases hg : pyGet ws i with
    | none => rw [hg] at h; exact absurd h (by simp)
    | some w =>
      rw [hg] at h
      cases hr : selectFields ws is with
      | none => rw [hr] at h; exact absurd h (by simp)
      | some rest =>
        rw [hr] at h
        simp only [Option.some.injEq] at h
        subst h
        simp [ih hr]

theorem selectFields_success {ws : List (List Char)} :
    ∀ {uc : List Int} {sel : List (List Char)},
      selectFields ws uc = some sel → ∀ i ∈ uc, ∃ w, pyGet ws i = some w := by
  intro uc
  induction uc with
  | nil => intro sel _ i hi; exact absurd hi (by simp)
  | cons j is ih =>
    intro sel h i hi
    simp only [selectFields] at h
    cases hg : pyGet ws j with
    | none => rw [hg] at h; exact absurd h (by simp)
    | some w =>
      rw [hg] at h
      cases hr : selectFields ws is with
      | none => rw [hr] at h; exact absurd h (by simp)
      | some rest =>
        rcases List.mem_cons.mp hi with h1 | h1
        · exact ⟨w, h1 ▸ hg⟩
        · exact ih hr i h1

theorem pyGet_le_length {α : Type} {xs : List α} {i : Int} {w : α}
    (h : pyGet xs i = some w) :
    -i ≤ (xs.length : Int) ∧ i + 1 ≤ (xs.length : Int) := by
  unfold pyGet at h
  split at h
  · rename_i h0
    obtain ⟨hlt, -⟩ := List.get?_eq_some.mp h
    omega
  · rename_i h0
    split at h
    · rename_i h1
      constructor
      · exact h1
      · omega
    · exact absurd h (by simp)

theorem foldl_min_mem (xs : List Int) (x : Int) : xs.foldl min x ∈ x :: xs := by
  induction xs generalizing x with
  | nil => simp
  | cons y ys ih =>
    simp only [List.foldl_cons]
    have h := ih (min x y)
    rcases List.mem_cons.mp h with h1 | h1
    · rcases min_choice x y with hm | hm
      · rw [h1, hm]; exact List.mem_cons_self _ _
      · rw [h1, hm]
        exact List.mem_cons_of_mem _ (List.mem_cons_self _ _)
    · exact List.mem_cons_of_mem _ (List.mem_cons_of_mem _ h1)

theorem foldl_max_mem (xs : List Int) (x : Int) : xs.foldl max x ∈ x :: xs := by
  induction xs generalizing x with
  | nil => simp
  | cons y ys ih =>
    simp only [List.foldl_cons]
    have h := ih (max x y)
    rcases List.mem_cons.mp h with h1 | h1
    · rcases max_choice x y with hm | hm
      · rw [h1, hm]; exact List.mem_cons_self _ _
      · rw [h1, hm]
        exact List.mem_cons_of_mem _ (List.mem_cons_self _ _)
    · exact List.mem_cons_of_mem _ (List.mem_cons_of_mem _ h1)

theorem pyMin_mem {uc : List Int} (h : uc ≠ []) : pyMin uc ∈ uc := by
  cases uc with
  | nil => exact absurd rfl h
  | cons x xs => exact foldl_min_mem xs x

theorem pyMax_mem {uc : List Int} (h : uc ≠ []) : pyMax uc ∈ uc := by
  cases uc with
  | nil => exact absurd rfl h
  | cons x xs => exact foldl_max_mem xs x

/-- When every requested column is addressable on a line (the source's
`[words[i] for i in usecols]` succeeded), the line's field count reaches the
threshold bound `max(-min(usecols), max(usecols) + 1)`. -/
theorem hiidx_le_of_select {ws : List (List Char)} {uc : List Int}
    {sel : List (List Char)} (huc : uc ≠ [])
    (h : selectFields ws uc = some sel) :
    max (-(pyMin uc)) (pyMax uc + 1) ≤ (ws.length : Int) := by
  have hall : ∀ i ∈ uc, -i ≤ (ws.length : Int) ∧ i + 1 ≤ (ws.length : Int) :=
    fun i hi => by
      obtain ⟨w, hw⟩ := selectFields_success h i hi
      exact pyGet_le_length hw
  have h1 := hall (pyMin uc) (pyMin_mem huc)
  have h2 := hall (pyMax uc) (pyMax_mem huc)
  exact max_le h1.1 (by omega)

theorem countcols_some_shape (conv : List Char → Option Int) (uc : List Int)
    (words : List (List Char)) :
    countcolumnsvalues conv (some uc) words = (0, 0) ∨
    ∃ n : Nat,
      countcolumnsvalues conv (some uc) words = ((n : Int), (uc.length : Int)) ∧
      (uc ≠ [] → max (-(pyMin uc)) (pyMax uc + 1) ≤ (n : Int)) := by
  cases hs : selectFields (stripTrailingBlanks words) uc with
  | none => left; simp [countcolumnsvalues, hs]
  | some sel =>
    cases hc : convertAll conv sel with
    | none => left; simp [countcolumnsvalues, hs, hc]
    | some vs =>
      right
      refine ⟨(stripTrailingBlanks words).length, ?_, ?_⟩
      · have hv : vs.length = uc.length := by
          rw [convertAll_length hc, selectFields_length hs]
        simp [countcolumnsvalues, hs, hc, hv]
      · intro hne; exact hiidx_le_of_select hne hs

theorem countcols_none_shape (conv : List Char → Option Int)
    (words : List (List Char)) :
    countcolumnsvalues conv none words = (0, 0) ∨
    ∃ n : Nat, countcolumnsvalues conv none words = ((n : Int), (n : Int)) := by
  cases hc : convertAll conv (stripTrailingBlanks words) with
  | none => left; simp [countcolumnsvalues, hc]
  | some vs =>
    right
    refine ⟨(stripTrailingBlanks words).length, ?_⟩
    have hv : vs.length = (stripTrailingBlanks words).length :=
      convertAll_length hc
    simp [countcolumnsvalues, hc, hv]

theorem pyTupLt_false_iff (a b : Int × Int) :
    pyTupLt a b = false ↔ ¬(a.1 < b.1 ∨ (a.1 = b.1 ∧ a.2 < b.2)) := by
  unfold pyTupLt
  split_ifs with h1 h2 <;> simp_all

theorem foldl_min_le (xs : List Int) (x : Int) :
    ∀ y ∈ x :: xs, xs.foldl min x ≤ y := by
  induction xs generalizing x with
  | nil =>
    intro y hy
    simp only [List.mem_singleton] at hy
    simp [hy]
  | cons z zs ih =>
    intro y hy
    simp only [List.foldl_cons]
    have hmin : zs.foldl min (min x z) ≤ min x z :=
      ih (min x z) (min x z) (List.mem_cons_self _ _)
    rcases List.mem_cons.mp hy with h1 | h1
    · rw [h1]; exact le_trans hmin (min_le_left _ _)
    · rcases List.mem_cons.mp h1 with h2 | h2
      · rw [h2]; exact le_trans hmin (min_le_right _ _)
      · exact ih (min x z) y (List.mem_cons_of_mem _ h2)

theorem pyMin_le {uc : List Int} {y : Int} (hy : y ∈ uc) : pyMin uc ≤ y := by
  cases uc with
  | nil => exact absurd hy (by simp)
  | cons x xs => exact foldl_min_le xs x y hy

theorem hiidx_pos {uc : List Int} (h : uc ≠ []) :
    1 ≤ max (-(pyMin uc)) (pyMax uc + 1) := by
  rcases le_or_lt 0 (pyMin uc) with h0 | h0
  · have hmax : 0 ≤ pyMax uc := le_trans h0 (pyMin_le (pyMax_mem h))
    exact le_trans (by omega) (le_max_right _ _)
  · exact le_trans (by omega) (le_max_left _ _)

theorem dedup_length_le (uc : List Int) : uc.dedup.length ≤ uc.length :=
  (List.dedup_sublist uc).length_le

/-! ## Claim theorems -/

/-- C1: a scanned line qualifies for inclusion in a candidate block (the
source's test `not (ncv < mincv)`, Python tuple comparison) exactly when its
classification pair is componentwise at least the threshold pair; in
particular meeting only one component never qualifies. -/
theorem C1_line_qualifies_iff_componentwise
    (conv : List Char → Option Int) (usecols : Option (List Int))
    (words : List (List Char))
    (hne : ∀ uc, usecols = some uc → uc ≠ []) :
    pyTupLt (countcolumnsvalues conv usecols words) (mincvOf usecols) = false ↔
      ((mincvOf usecols).1 ≤ (countcolumnsvalues conv usecols words).1 ∧
       (mincvOf usecols).2 ≤ (countcolumnsvalues conv usecols words).2) := by
  cases usecols with
  | none =>
    rcases countcols_none_shape conv words with h | ⟨n, h⟩ <;>
      rw [h, pyTupLt_false_iff] <;> simp [mincvOf] <;> omega
  | some uc =>
    have huc : uc ≠ [] := hne uc rfl
    have hp := hiidx_pos huc
    have hd : ((uc.dedup.length : Int)) ≤ (uc.length : Int) := by
      exact_mod_cast dedup_length_le uc
    rcases countcols_some_shape conv uc words with h | ⟨n, h, hb⟩
    · rw [h, pyTupLt_false_iff]
      simp only [mincvOf]
      constructor
      · intro hcon
        exact absurd (Or.inl (by omega)) hcon
      · intro ⟨h1, _⟩
        omega
    · have hb' := hb huc
      rw [h, pyTupLt_false_iff]
      simp only [mincvOf]
      constructor
      · intro _
        exact ⟨hb', by omega⟩
      · intro ⟨h1, h2⟩ hcon
        rcases hcon with h3 | ⟨h3, h4⟩ <;> omega

/-- C1 witness: with `usecols = [0]` the line `["7"]` classifies as `(1, 1)`,
exactly meets the threshold `(1, 1)`, and qualifies. -/
theorem C1_line_qualifies_iff_componentwise_witness :
    pyTupLt (countcolumnsvalues convInt (some [0]) [['7']])
        (mincvOf (some [0])) = false ↔
      ((mincvOf (some [0])).1 ≤
          (countcolumnsvalues convInt (some [0]) [['7']]).1 ∧
       (mincvOf (some [0])).2 ≤
          (countcolumnsvalues convInt (some [0]) [['7']]).2) :=
  C1_line_qualifies_iff_componentwise convInt (some [0]) [['7']]
    (fun uc h => by cases h; decide)

/-! ## Scanner lemmas -/

/-- Non-qualifying lines are skipped: they only advance the byte position and
line index, leaving no candidate. -/
theorem scanAux_append_junk (classify : List (List Char) → Int × Int)
    (mincv : Int × Int) (minrows : Nat) :
    ∀ (junk ls : List Line) (fpos idx : Nat),
      (∀ l ∈ junk, pyTupLt (classify l.words) mincv = true) →
      scanAux classify mincv minrows (junk ++ ls) none fpos idx =
        scanAux classify mincv minrows ls none (fpos + sumBlens junk)
          (idx + junk.length) := by
  intro junk
  induction junk with
  | nil => intro ls fpos idx _; simp [sumBlens]
  | cons l junk ih =>
    intro ls fpos idx h
    have hl := h l (List.mem_cons_self _ _)
    simp only [List.cons_append, scanAux, hl, if_true, List.append_eq]
    rw [ih ls (fpos + l.blen) (idx + 1)
      (fun l' hl' => h l' (List.mem_cons_of_mem _ hl'))]
    have h1 : fpos + l.blen + sumBlens junk = fpos + sumBlens (l :: junk) := by
      simp [sumBlens]; omega
    have h2 : idx + 1 + junk.length = idx + (l :: junk).length := by
      simp; omega
    rw [h1, h2]

/-- While qualifying lines with the candidate's classification keep coming,
the candidate only grows, and the scan stops with exactly `minrows` rows. -/
theorem scanAux_run (classify : List (List Char) → Int × Int)
    (mincv : Int × Int) (minrows : Nat) (ncv0 : Int × Int)
    (hq : pyTupLt ncv0 mincv = false) :
    ∀ (bl : List Line) (rest : List Line) (k : Nat) (c : Cand)
      (fpos idx : Nat),
      (∀ l ∈ bl, classify l.words = ncv0) →
      c.ncv = ncv0 → c.rows = k → k < minrows → minrows ≤ k + bl.length →
      scanAux classify mincv minrows (bl ++ rest) (some c) fpos idx =
        some ⟨c.off, c.idx, ncv0, minrows⟩ := by
  intro bl
  induction bl with
  | nil =>
    intro rest k c fpos idx _ _ _ hk hlen
    have h0 : ([] : List Line).length = 0 := rfl
    omega
  | cons b bs ih =>
    intro rest k c fpos idx h hncv hrows hk hlen
    have hb := h b (List.mem_cons_self _ _)
    simp only [List.cons_append, scanAux, hb, hq, Bool.false_eq_true,
      if_false, hncv, eq_self_iff_true, if_true, List.append_eq]
    by_cases hfin : minrows ≤ c.rows + 1
    · have hr : c.rows + 1 = minrows := by omega
      simp [hfin, hr, hncv]
    · rw [if_neg hfin]
      have := ih rest (k + 1) { c with rows := c.rows + 1 }
        (fpos + b.blen) (idx + 1)
        (fun l' hl' => h l' (List.mem_cons_of_mem _ hl'))
        hncv (by simp [hrows]) (by omega) (by simp at hlen ⊢; omega)
      simpa [hncv] using this

/-- C2: when the file is `junk ++ block ++ rest` with every junk line
non-qualifying and `block` a run of at least `minrows` qualifying lines of one
classification `ncv0`, the scan stops inside the block and the candidate's
start offset is exactly the total byte length of the junk lines (its line
index is the junk count), for any amount of junk including none. -/
theorem C2_start_offset_is_sum_of_preceding_lines
    (conv : List Char → Option Int) (usecols : Option (List Int))
    (minrows : Nat) (junk block rest : List Line) (ncv0 : Int × Int)
    (hmr : 1 ≤ minrows)
    (hjunk : ∀ l ∈ junk,
      pyTupLt (countcolumnsvalues conv usecols l.words) (mincvOf usecols)
        = true)
    (hblock : ∀ l ∈ block, countcolumnsvalues conv usecols l.words = ncv0)
    (hq : pyTupLt ncv0 (mincvOf usecols) = false)
    (hlen : minrows ≤ block.length) :
    scanBlock (fun ws => countcolumnsvalues conv usecols ws) (mincvOf usecols)
        minrows (junk ++ block ++ rest) =
      some ⟨sumBlens junk, junk.length, ncv0, minrows⟩ := by
  unfold scanBlock
  rw [List.append_assoc,
    scanAux_append_junk _ _ _ junk (block ++ rest) 0 0 hjunk]
  cases block with
  | nil =>
    have h0 : ([] : List Line).length = 0 := rfl
    omega
  | cons b bs =>
    have hb := hblock b (List.mem_cons_self _ _)
    simp only [List.cons_append, scanAux, hb, hq, Bool.false_eq_true,
      if_false]
    by_cases h1 : minrows ≤ 1
    · have hm1 : minrows = 1 := by omega
      simp [h1, hm1]
    · simp only [h1, if_false]
      have := scanAux_run (fun ws => countcolumnsvalues conv usecols ws)
        (mincvOf usecols) minrows ncv0 hq bs rest 1
        ⟨0 + sumBlens junk, 0 + junk.length, ncv0, 1⟩
        (0 + sumBlens junk + b.blen) (0 + junk.length + 1)
        (fun l' hl' => hblock l' (List.mem_cons_of_mem _ hl'))
        rfl rfl (by omega) (by simp at hlen ⊢; omega)
      simpa using this

/-- C2 witness: one junk line of 2 bytes followed by a 2-row block; the scan
reports start offset 2, line index 1. -/
theorem C2_start_offset_is_sum_of_preceding_lines_witness :
    scanBlock (fun ws => countcolumnsvalues convInt none ws) (mincvOf none) 2
        ([⟨[['a']], 2⟩] ++ [⟨[['1'], ['2']], 4⟩, ⟨[['3'], ['4']], 4⟩] ++ []) =
      some ⟨2, 1, (2, 2), 2⟩ := by
  have := C2_start_offset_is_sum_of_preceding_lines convInt none 2
    [⟨[['a']], 2⟩] [⟨[['1'], ['2']], 4⟩, ⟨[['3'], ['4']], 4⟩] [] (2, 2)
    (by decide) (by decide) (by decide) (by decide) (by decide)
  simpa [sumBlens] using this

/-! ## Threshold lemmas -/

theorem foldl_le_max (xs : List Int) (x : Int) :
    ∀ y ∈ x :: xs, y ≤ xs.foldl max x := by
  induction xs generalizing x with
  | nil =>
    intro y hy
    simp only [List.mem_singleton] at hy
    simp [hy]
  | cons z zs ih =>
    intro y hy
    simp only [List.foldl_cons]
    have hmax : max x z ≤ zs.foldl max (max x z) :=
      ih (max x z) (max x z) (List.mem_cons_self _ _)
    rcases List.mem_cons.mp hy with h1 | h1
    · rw [h1]; exact le_trans (le_max_left _ _) hmax
    · rcases List.mem_cons.mp h1 with h2 | h2
      · rw [h2]; exact le_trans (le_max_right _ _) hmax
      · exact ih (max x z) y (List.mem_cons_of_mem _ h2)

theorem le_pyMax {uc : List Int} {y : Int} (hy : y ∈ uc) : y ≤ pyMax uc := by
  cases uc with
  | nil => exact absurd hy (by simp)
  | cons x xs => exact foldl_le_max xs x y hy

theorem pyMin_eq_min' {uc : List Int} (h : uc ≠ [])
    (hne : uc.toFinset.Nonempty) : pyMin uc = uc.toFinset.min' hne := by
  apply le_antisymm
  · exact Finset.le_min' _ _ _
      (fun y hy => pyMin_le (List.mem_toFinset.mp hy))
  · exact Finset.min'_le _ _ (List.mem_toFinset.mpr (pyMin_mem h))

theorem pyMax_eq_max' {uc : List Int} (h : uc ≠ [])
    (hne : uc.toFinset.Nonempty) : pyMax uc = uc.toFinset.max' hne := by
  apply le_antisymm
  · exact Finset.le_max' _ _ (List.mem_toFinset.mpr (pyMax_mem h))
  · exact Finset.max'_le _ _ _
      (fun y hy => le_pyMax (List.mem_toFinset.mp hy))

/-- C3: the threshold is `(1, 1)` when no columns are requested; otherwise its
column-count component is `max(-min(usecols), max(usecols) + 1)` over the
resolved integer column list and its value-count component is the number of
distinct requested columns. -/
theorem C3_threshold_from_usecols :
    mincvOf none = (1, 1) ∧
    ∀ (uc : List Int) (h : uc.toFinset.Nonempty),
      mincvOf (some uc) =
        (max (-(uc.toFinset.min' h)) (uc.toFinset.max' h + 1),
         (uc.toFinset.card : Int)) := by
  refine ⟨rfl, ?_⟩
  intro uc h
  have hne : uc ≠ [] := by
    intro he
    subst he
    simp only [List.toFinset_nil] at h
    exact Finset.not_nonempty_empty h
  simp only [mincvOf]
  rw [pyMin_eq_min' hne h, pyMax_eq_max' hne h, List.card_toFinset]

/-- C3 witness: for `usecols = [0, -1]` the threshold is
`(max(1, 1), 2) = (1, 2)`. -/
theorem C3_threshold_from_usecols_witness :
    mincvOf (some [0, -1]) =
      (max (-(([0, -1] : List Int).toFinset.min'
          (by simp)))
        ((([0, -1] : List Int).toFinset.max' (by simp)) + 1),
       ((([0, -1] : List Int).toFinset.card : Int)) ) :=
  C3_threshold_from_usecols.2 [0, -1] (by simp)

/-- C4 (code bug): a file ending in a partial candidate block — one junk line
followed by a single qualifying line with `minrows = 2` — is loaded from the
partial candidate instead of yielding the empty table: the scan loop never
resets `start` at end of stream, so `load_data` returns the one-row table
`[[1, 2]]`, not the empty array of shape `(0,)` that the claim (and the
function's own docstring, "the first matrix block of at least minrows rows")
requires. -/
theorem C4_partial_trailing_block_is_loaded :
    load_data convInt [⟨[['a']], 2⟩, ⟨[['1'], ['2']], 4⟩] 2 none
        = .ok [[1, 2]] ∧
      ([[1, 2]] : List (List Int)) ≠ [] := by
  exact ⟨by decide, by decide⟩

/-- C5 counterexample: on a two-line, three-column block with
`usecols = [1]`, `load_data` parses only the requested column — the result is
`[[1], [4]]` — while parsing "all columns present in the detected block"
(columns `range(3)`) would give `[[0, 1, 2], [3, 4, 5]]`. -/
theorem C5_counterexample_subset_parsed :
    load_data convInt [⟨[['0'], ['1'], ['2']], 6⟩, ⟨[['3'], ['4'], ['5']], 6⟩]
        2 (some [1]) = .ok [[1], [4]] ∧
    loadtxtM convInt (pyRangeNat 3)
        [⟨[['0'], ['1'], ['2']], 6⟩, ⟨[['3'], ['4'], ['5']], 6⟩]
      = .ok [[0, 1, 2], [3, 4, 5]] ∧
    (Except.ok [[1], [4]] : Except (List Char) (List (List Int)))
      ≠ .ok [[0, 1, 2], [3, 4, 5]] := by
  exact ⟨by decide, by decide, by decide⟩

/-- C5 (amended): whenever the scan succeeds, `load_data` seeks to the
returned offset (drops the preceding lines) and parses from there with the
requested columns when `usecols` was provided; only when `usecols` was not
explicitly provided is it defaulted to the full column range `0..ncols-1` of
the detected block before parsing. -/
theorem C5_parse_from_offset_with_effective_usecols
    (conv : List Char → Option Int) (lines : List Line) (minrows : Nat)
    (usecols : Option (List Int)) (c : Cand)
    (hscan : scanBlock (fun ws => countcolumnsvalues conv usecols ws)
        (mincvOf usecols) minrows lines = some c) :
    load_data conv lines minrows usecols =
      loadtxtM conv (usecols.getD (pyRangeNat c.ncv.1)) (lines.drop c.idx) := by
  unfold load_data
  rw [hscan]

/-- C5 witness: at the counterexample file the scan finds the block at line 0
with classification `(3, 1)` and `load_data` equals `loadtxt` on the
requested column `[1]`. -/
theorem C5_parse_from_offset_with_effective_usecols_witness :
    load_data convInt
        [⟨[['0'], ['1'], ['2']], 6⟩, ⟨[['3'], ['4'], ['5']], 6⟩] 2
        (some [1]) =
      loadtxtM convInt ((some [1]).getD (pyRangeNat ((3 : Int), (1 : Int)).1))
        (([⟨[['0'], ['1'], ['2']], 6⟩,
           ⟨[['3'], ['4'], ['5']], 6⟩] : List Line).drop
          (Cand.idx ⟨0, 0, (3, 1), 2⟩)) :=
  C5_parse_from_offset_with_effective_usecols convInt
    [⟨[['0'], ['1'], ['2']], 6⟩, ⟨[['3'], ['4'], ['5']], 6⟩] 2 (some [1])
    ⟨0, 0, (3, 1), 2⟩ (by decide)

/-- C10: the classifier is total — a failed index selection or a failed float
conversion yields the classification `(0, 0)` rather than an exception — and
any nonzero classification under a given `usecols` has value count equal to
the number of requested entries, hence at least the number of distinct
requested columns. -/
theorem C10_classifier_total_and_value_count
    (conv : List Char → Option Int) (uc : List Int)
    (words : List (List Char)) :
    ((selectFields (stripTrailingBlanks words) uc = none ∨
      (∃ sel, selectFields (stripTrailingBlanks words) uc = some sel ∧
        convertAll conv sel = none)) →
      countcolumnsvalues conv (some uc) words = (0, 0)) ∧
    (countcolumnsvalues conv (some uc) words ≠ (0, 0) →
      (countcolumnsvalues conv (some uc) words).2 = (uc.length : Int) ∧
      ((uc.toFinset.card : Int)) ≤
        (countcolumnsvalues conv (some uc) words).2) := by
  constructor
  · intro hfail
    rcases hfail with hs | ⟨sel, hs, hc⟩
    · simp [countcolumnsvalues, hs]
    · simp [countcolumnsvalues, hs, hc]
  · intro hne
    rcases countcols_some_shape conv uc words with h | ⟨n, h, -⟩
    · exact absurd h hne
    · rw [h]
      refine ⟨rfl, ?_⟩
      have hd := dedup_length_le uc
      rw [List.card_toFinset]
      show ((uc.dedup.length : Int)) ≤ ((uc.length : Int))
      exact_mod_cast hd

/-- C10 witness: `usecols = [0, 5]` on a one-field line fails selection and
classifies `(0, 0)`; `usecols = [0, 0]` on a two-field line classifies
`(2, 2)` with value count `2 = len(usecols) ≥ 1` distinct column. -/
theorem C10_classifier_total_and_value_count_witness :
    countcolumnsvalues convInt (some [0, 5]) [['1']] = (0, 0) ∧
    ((countcolumnsvalues convInt (some [0, 0]) [['1'], ['2']]).2 =
        (([0, 0] : List Int).length : Int) ∧
      ((([0, 0] : List Int).toFinset.card : Int)) ≤
        (countcolumnsvalues convInt (some [0, 0]) [['1'], ['2']]).2) :=
  ⟨(C10_classifier_total_and_value_count convInt [0, 5] [['1']]).1
      (Or.inl (by decide)),
   (C10_classifier_total_and_value_count convInt [0, 0] [['1'], ['2']]).2
      (by decide)⟩

/-! ## Alias-substitution lemmas -/

theorem mem_dotindicesAux :
    ∀ (cs : List PyTok) (base j : Nat),
      j ∈ dotindicesAux cs base ↔
        ∃ k, j = base + k ∧ cs.get? k = some (PyTok.str ['.']) := by
  intro cs
  induction cs with
  | nil =>
    intro base j
    simp [dotindicesAux]
  | cons c cs ih =>
    intro base j
    by_cases hc : c = PyTok.str ['.']
    · rw [show dotindicesAux (c :: cs) base
          = base :: dotindicesAux cs (base + 1) by simp [dotindicesAux, hc]]
      constructor
      · intro hj
        rcases List.mem_cons.mp hj with h1 | h1
        · exact ⟨0, by omega, by simp [hc]⟩
        · obtain ⟨k, hk1, hk2⟩ := (ih (base + 1) j).mp h1
          exact ⟨k + 1, by omega, by simpa using hk2⟩
      · rintro ⟨k, hk1, hk2⟩
        cases k with
        | zero => simp [hk1]
        | succ k =>
          exact List.mem_cons_of_mem _
            ((ih (base + 1) j).mpr ⟨k, by omega, by simpa using hk2⟩)
    · rw [show dotindicesAux (c :: cs) base
          = dotindicesAux cs (base + 1) by simp [dotindicesAux, hc]]
      constructor
      · intro hj
        obtain ⟨k, hk1, hk2⟩ := (ih (base + 1) j).mp hj
        exact ⟨k + 1, by omega, by simpa using hk2⟩
      · rintro ⟨k, hk1, hk2⟩
        cases k with
        | zero =>
          simp only [List.get?_cons_zero, Option.some.injEq] at hk2
          exact absurd hk2 hc
        | succ k =>
          exact (ih (base + 1) j).mpr ⟨k, by omega, by simpa using hk2⟩

theorem mem_dotindices {uc : List PyTok} {j : Nat} :
    j ∈ dotindices uc ↔ uc.get? j = some (PyTok.str ['.']) := by
  unfold dotindices
  rw [mem_dotindicesAux]
  constructor
  · rintro ⟨k, hk1, hk2⟩
    have : j = k := by omega
    exact this ▸ hk2
  · intro h
    exact ⟨j, by omega, h⟩

theorem foldl_set_get? (v : PyTok) :
    ∀ (idxs : List Nat) (l : List PyTok) (j : Nat),
      (idxs.foldl (fun acc i => acc.set i v) l).get? j =
        if j ∈ idxs ∧ j < l.length then some v else l.get? j := by
  intro idxs
  induction idxs with
  | nil =>
    intro l j
    simp
  | cons i is ih =>
    intro l j
    simp only [List.foldl_cons]
    rw [ih (l.set i v) j, List.length_set]
    by_cases hmem : j ∈ is ∧ j < l.length
    · rw [if_pos hmem, if_pos ⟨List.mem_cons_of_mem _ hmem.1, hmem.2⟩]
    · rw [if_neg hmem]
      by_cases hij : i = j
      · subst hij
        by_cases hlen : i < l.length
        · rw [List.get?_set_eq, List.get?_eq_get hlen,
            if_pos ⟨List.mem_cons_self _ _, hlen⟩]
          rfl
        · have h0 : l.get? i = none := List.get?_eq_none.mpr (by omega)
          rw [List.get?_set_eq, h0, if_neg (fun hcon => hlen hcon.2)]
          rfl
      · rw [List.get?_set_ne _ _ hij]
        have : (j ∈ i :: is ∧ j < l.length) ↔ (j ∈ is ∧ j < l.length) := by
          constructor
          · rintro ⟨h1, h2⟩
            rcases List.mem_cons.mp h1 with h3 | h3
            · exact absurd h3.symm hij
            · exact ⟨h3, h2⟩
          · rintro ⟨h1, h2⟩
            exact ⟨List.mem_cons_of_mem _ h1, h2⟩
        rw [if_neg (fun hcon => hmem (this.mp hcon))]

/-- C7 counterexample: for the request `x = "."`, `y = "G"` the combined list
is `['.', 'G']`; the substitute is the column-name string `'G'`, not an
integer, and it is written at the alias position. -/
theorem C7_counterexample_name_substitute :
    substDots [PyTok.str ['.'], PyTok.str ['G']] =
        [PyTok.str ['G'], PyTok.str ['G']] ∧
      isIntTok (dotalias [PyTok.str ['.'], PyTok.str ['G']]) = false := by
  exact ⟨by decide, by decide⟩

/-- C7 (amended): every occurrence of the row-index alias `'.'` is replaced in
place by one and the same substitute for the whole list — the first non-alias
entry, or the integer 0 when every entry is the alias — while non-alias
entries are left unchanged; the substitute is an integer whenever every
non-alias entry is an integer index, but it is the first entry itself
otherwise, which may be a column-name string. -/
theorem C7_alias_substituted_in_place (uc : List PyTok) (j : Nat)
    (hj : j < uc.length) :
    ((substDots uc).get? j =
      if uc.get? j = some (PyTok.str ['.']) then some (dotalias uc)
      else uc.get? j) ∧
    ((∀ c ∈ uc, c ≠ PyTok.str ['.'] → isIntTok c = true) →
      isIntTok (dotalias uc) = true) := by
  constructor
  · unfold substDots
    rw [foldl_set_get?]
    by_cases hd : uc.get? j = some (PyTok.str ['.'])
    · have hmem : j ∈ dotindices uc := mem_dotindices.mpr hd
      rw [if_pos ⟨hmem, hj⟩, if_pos hd]
    · have hmem : j ∉ dotindices uc := fun h => hd (mem_dotindices.mp h)
      rw [if_neg (fun hcon => hmem hcon.1), if_neg hd]
  · intro hall
    unfold dotalias
    cases hf : uc.filter (fun c => c ≠ PyTok.str ['.']) with
    | nil => rfl
    | cons c cs =>
      have hc : c ∈ uc.filter (fun c => c ≠ PyTok.str ['.']) := by
        rw [hf]; exact List.mem_cons_self _ _
      have hmf := List.mem_filter.mp hc
      exact hall c hmf.1 (by simpa using hmf.2)

/-- C7 witness: in `['.', 3]` the alias position 0 receives the integer
substitute 3, and with every non-alias entry an integer the substitute is an
integer. -/
theorem C7_alias_substituted_in_place_witness :
    ((substDots [PyTok.str ['.'], PyTok.int 3]).get? 0 =
      if ([PyTok.str ['.'], PyTok.int 3].get? 0 = some (PyTok.str ['.'])) then
        some (dotalias [PyTok.str ['.'], PyTok.int 3])
      else [PyTok.str ['.'], PyTok.int 3].get? 0) ∧
    ((∀ c ∈ [PyTok.str ['.'], PyTok.int 3], c ≠ PyTok.str ['.'] →
        isIntTok c = true) →
      isIntTok (dotalias [PyTok.str ['.'], PyTok.int 3]) = true) :=
  C7_alias_substituted_in_place [PyTok.str ['.'], PyTok.int 3] 0 (by decide)

/-! ## Column-spec token lemmas -/

theorem splitOnChar_ne_nil (c : Char) : ∀ (w : List Char),
    splitOnChar c w ≠ [] := by
  intro w
  induction w with
  | nil => simp [splitOnChar]
  | cons x xs ih =>
    by_cases hx : x = c
    · simp [splitOnChar, hx]
    · simp only [splitOnChar, if_neg hx]
      cases hs : splitOnChar c xs with
      | nil => exact absurd hs ih
      | cons p ps => simp

theorem splitOnChar_length (c : Char) : ∀ (w : List Char),
    (splitOnChar c w).length = charCount c w + 1 := by
  intro w
  induction w with
  | nil => simp [splitOnChar, charCount]
  | cons x xs ih =>
    by_cases hx : x = c
    · simp only [splitOnChar, if_pos hx, List.length_cons, charCount,
        List.countP_cons]
      simp only [charCount] at ih
      simp [hx]
      omega
    · simp only [splitOnChar, if_neg hx]
      cases hs : splitOnChar c xs with
      | nil => exact absurd hs (splitOnChar_ne_nil c xs)
      | cons p ps =>
        rw [hs] at ih
        simp only [List.length_cons] at ih ⊢
        simp only [charCount, List.countP_cons] at ih ⊢
        simp [hx]
        omega

theorem mxint_false_of_colon {w : List Char} (h : 1 ≤ charCount ':' w) :
    mxint w = false := by
  have hmem : ':' ∈ w := by
    have := (List.countP_pos (p := fun x => decide (x = ':')) (l := w)).mp (by
      simp only [charCount] at h
      omega)
    obtain ⟨a, ha, hp⟩ := this
    simp only [decide_eq_true_eq] at hp
    exact hp ▸ ha
  cases w with
  | nil => exact absurd hmem (by simp)
  | cons x xs =>
    simp only [mxint]
    by_cases hx : x = '+' ∨ x = '-'
    · rw [if_pos hx]
      have hxs : ':' ∈ xs := by
        rcases List.mem_cons.mp hmem with h1 | h1
        · rcases hx with h2 | h2 <;> rw [h2] at h1 <;> exact absurd h1.symm
            (by decide)
        · exact h1
      have : xs.all (fun d => d.isDigit) = false := by
        rw [List.all_eq_false]
        exact ⟨':', hxs, by decide⟩
      simp [this]
    · rw [if_neg hx]
      have : (x :: xs).all (fun d => d.isDigit) = false := by
        rw [List.all_eq_false]
        exact ⟨':', hmem, by decide⟩
      simp [this]

/-- C9: a range token with one or two `:` separators whose stop piece is
empty (and which is not captured by the name/alias branch) makes
`_parsecolumnid` raise `invalid column identifier` — the message embeds the
offending token — instead of returning a result; concretely, parsing the spec
string `"2:"` yields that error. -/
theorem C9_open_ended_range_raises (w : List Char)
    (hcount : charCount ':' w = 1 ∨ charCount ':' w = 2)
    (hstop : ((splitOnChar ':' w).map pyStrip).get? 1 = some [])
    (hname : ¬((w.head?.elim false (fun c => c.isAlpha)) ∨
        w.head? = some '@' ∨ w = ['.'])) :
    parseTok (PyTok.str w) = .error (invalidMsg w) ∧
    (∃ pre post, pre ++ w ++ post = invalidMsg w) ∧
    _parsecolumnid (PyColArg.str ['2', ':']) = .error (invalidMsg ['2', ':']) := by
  refine ⟨?_, ⟨"invalid column identifier ".toList ++ ['\''], ['\''], by
    simp [invalidMsg]⟩, by decide⟩
  have hm : mxint w = false := mxint_false_of_colon (by omega)
  simp only [parseTok]
  rw [if_neg hname, if_neg (by simp [hm]), if_pos (by omega)]
  by_cases hall : ((splitOnChar ':' w).map pyStrip).all
      (fun x => x.isEmpty || mxint x)
  · rw [if_pos hall]
    have hlen : ((splitOnChar ':' w).map pyStrip).length
        = charCount ':' w + 1 := by
      rw [List.length_map, splitOnChar_length]
    rcases hcount with h1 | h2
    · have h2 : ((splitOnChar ':' w).map pyStrip).length = 2 := by omega
      obtain ⟨p0, p1, hp⟩ := List.length_eq_two.mp h2
      rw [hp] at hstop
      simp only [List.get?_cons_succ, List.get?_cons_zero,
        Option.some.injEq] at hstop
      rw [hp, hstop]
      simp [expandRange, expandRange.expandSlice]
    · have h3 : ((splitOnChar ':' w).map pyStrip).length = 3 := by omega
      obtain ⟨p0, p1, p2, hp⟩ := List.length_eq_three.mp h3
      rw [hp] at hstop
      simp only [List.get?_cons_succ, List.get?_cons_zero,
        Option.some.injEq] at hstop
      rw [hp, hstop]
      simp [expandRange, expandRange.expandSlice]
  · rw [if_neg hall]

/-- C9 witness: the token `"2:"` itself. -/
theorem C9_open_ended_range_raises_witness :
    parseTok (PyTok.str ['2', ':']) = .error (invalidMsg ['2', ':']) ∧
    (∃ pre post, pre ++ ['2', ':'] ++ post = invalidMsg ['2', ':']) ∧
    _parsecolumnid (PyColArg.str ['2', ':'])
      = .error (invalidMsg ['2', ':']) :=
  C9_open_ended_range_raises ['2', ':'] (Or.inl (by decide)) (by decide)
    (by decide)

/-! ## Range-expansion lemmas -/

theorem sliceLen_zero {a b c : Int} (hc : c ≠ 0)
    (h : ¬((0 < c ∧ a < b) ∨ (c < 0 ∧ b < a))) : sliceLen a b c = 0 := by
  push_neg at h
  obtain ⟨h1, h2⟩ := h
  unfold sliceLen
  split_ifs with hpos
  · have hba : b ≤ a := h1 hpos
    rcases le_or_lt 0 (b - a + c - 1) with h0 | h0
    · rw [Int.ediv_eq_zero_of_lt h0 (by omega)]
      rfl
    · have := Int.ediv_neg' h0 hpos
      omega
  · have hneg : c < 0 := by omega
    have hab : a ≤ b := h2 hneg
    rcases le_or_lt 0 (a - b + (-c) - 1) with h0 | h0
    · rw [Int.ediv_eq_zero_of_lt h0 (by omega)]
      rfl
    · have := Int.ediv_neg' h0 (by omega : (0 : Int) < -c)
      omega

theorem sliceLen_step {a b c : Int}
    (h : (0 < c ∧ a < b) ∨ (c < 0 ∧ b < a)) :
    sliceLen a b c = sliceLen (a + c) b c + 1 := by
  rcases h with ⟨hc, hab⟩ | ⟨hc, hab⟩
  · unfold sliceLen
    rw [if_pos hc, if_pos hc]
    have key : b - a + c - 1 = (b - (a + c) + c - 1) + 1 * c := by ring
    rw [key, Int.add_mul_ediv_right _ _ (by omega : c ≠ 0)]
    have hq : 0 ≤ (b - (a + c) + c - 1) / c :=
      Int.ediv_nonneg (by omega) (by omega)
    omega
  · unfold sliceLen
    rw [if_neg (by omega), if_neg (by omega)]
    have key : a - b + (-c) - 1 = ((a + c) - b + (-c) - 1) + 1 * (-c) := by
      ring
    rw [key, Int.add_mul_ediv_right _ _ (by omega : (-c) ≠ 0)]
    have hq : 0 ≤ ((a + c) - b + (-c) - 1) / (-c) :=
      Int.ediv_nonneg (by omega) (by omega)
    omega

theorem sliceSpecSeq_step {a b c : Int}
    (h : (0 < c ∧ a < b) ∨ (c < 0 ∧ b < a)) :
    sliceSpecSeq a b c = a :: sliceSpecSeq (a + c) b c := by
  unfold sliceSpecSeq
  rw [sliceLen_step h, List.range_succ_eq_map, List.map_cons, List.map_map]
  congr 1
  · show a + Int.ofNat 0 * c = a
    simp
  · congr 1
    funext k
    show a + Int.ofNat (k + 1) * c = a + c + Int.ofNat k * c
    have hsucc : Int.ofNat (k + 1) = Int.ofNat k + 1 := rfl
    rw [hsucc]
    ring

theorem arangeAux_eq_sliceSpecSeq {b c : Int} (hc : c ≠ 0) :
    ∀ (n : Nat) (a : Int),
      (if 0 < c then b - a else a - b).toNat ≤ n →
      arangeAux (n + 1) a b c = sliceSpecSeq a b c := by
  intro n
  induction n with
  | zero =>
    intro a h
    by_cases hcond : (0 < c ∧ a < b) ∨ (c < 0 ∧ b < a)
    · exfalso
      rcases hcond with ⟨h1, h2⟩ | ⟨h1, h2⟩
      · rw [if_pos h1] at h; omega
      · rw [if_neg (by omega)] at h; omega
    · rw [show arangeAux 1 a b c = [] by simp [arangeAux, hcond]]
      simp [sliceSpecSeq, sliceLen_zero hc hcond]
  | succ n ih =>
    intro a h
    by_cases hcond : (0 < c ∧ a < b) ∨ (c < 0 ∧ b < a)
    · rw [show arangeAux (n + 1 + 1) a b c
          = a :: arangeAux (n + 1) (a + c) b c by simp [arangeAux, hcond]]
      rw [sliceSpecSeq_step hcond]
      congr 1
      apply ih
      rcases hcond with ⟨h1, h2⟩ | ⟨h1, h2⟩
      · rw [if_pos h1] at h ⊢; omega
      · rw [if_neg (by omega)] at h ⊢; omega
    · rw [show arangeAux (n + 1 + 1) a b c = [] by simp [arangeAux, hcond]]
      simp [sliceSpecSeq, sliceLen_zero hc hcond]

theorem pyArange_eq_sliceSpecSeq {a b c : Int} (hc : c ≠ 0) :
    pyArange a b c = sliceSpecSeq a b c :=
  arangeAux_eq_sliceSpecSeq hc _ a (le_refl _)

/-- C8: resolving the string `"0,2:4"` equals resolving the explicit list
`[0, 2, 3]`; a negative-step range resolves through the same expansion
(`"5:1:-2"` gives `[5, 3]`); and in general the expansion of
`start:stop:step` (for any nonzero explicit step) is exactly the spec's slice
sequence — the integers from start inclusive towards stop exclusive advancing
by step. -/
theorem C8_range_roundtrip_and_slice_semantics :
    _parsecolumnid (PyColArg.str ("0,2:4".toList))
      = _parsecolumnid (PyColArg.list [PyTok.int 0, PyTok.int 2, PyTok.int 3])
    ∧ _parsecolumnid (PyColArg.str ("5:1:-2".toList))
      = .ok (some [PyTok.int 5, PyTok.int 3])
    ∧ ∀ a b c : Int, c ≠ 0 → pyArange a b c = sliceSpecSeq a b c := by
  exact ⟨by decide, by decide, fun a b c hc => pyArange_eq_sliceSpecSeq hc⟩

/-- C8 witness: the general slice identity at `0:6:2`. -/
theorem C8_range_roundtrip_and_slice_semantics_witness :
    _parsecolumnid (PyColArg.str ("0,2:4".toList))
      = _parsecolumnid (PyColArg.list [PyTok.int 0, PyTok.int 2, PyTok.int 3])
    ∧ pyArange 0 6 2 = sliceSpecSeq 0 6 2 :=
  ⟨C8_range_roundtrip_and_slice_semantics.1,
   C8_range_roundtrip_and_slice_semantics.2.2 0 6 2 (by decide)⟩

/-! ## Table-shape lemmas -/

theorem loadtxtRow_length {conv : List Char → Option Int} {uc : List Int}
    {ws : List (List Char)} {r : List Int}
    (h : loadtxtRow conv uc ws = some r) : r.length = uc.length := by
  unfold loadtxtRow at h
  cases hs : selectFields ws uc with
  | none => rw [hs] at h; exact absurd h (by simp)
  | some sel =>
    rw [hs] at h
    rw [convertAll_length h, selectFields_length hs]

theorem loadtxtM_row_lengths {conv : List Char → Option Int} {uc : List Int} :
    ∀ {ls : List Line} {d : List (List Int)},
      loadtxtM conv uc ls = .ok d → ∀ row ∈ d, row.length = uc.length := by
  intro ls
  induction ls with
  | nil =>
    intro d h row hrow
    simp only [loadtxtM] at h
    have hd : [] = d := Except.ok.inj h
    rw [← hd] at hrow
    exact absurd hrow (by simp)
  | cons l ls ih =>
    intro d h row hrow
    simp only [loadtxtM] at h
    by_cases hemp : l.words.isEmpty
    · rw [if_pos hemp] at h
      exact ih h row hrow
    · rw [if_neg hemp] at h
      cases hr : loadtxtRow conv uc l.words with
      | none => rw [hr] at h; exact Except.noConfusion h
      | some r =>
        rw [hr] at h
        cases hm : loadtxtM conv uc ls with
        | error e => rw [hm] at h; exact Except.noConfusion h
        | ok rs =>
          rw [hm] at h
          simp only [Except.map] at h
          have hd : r :: rs = d := Except.ok.inj h
          rw [← hd] at hrow
          rcases List.mem_cons.mp hrow with h1 | h1
          · rw [h1]; exact loadtxtRow_length hr
          · exact ih hm row h1

theorem load_data_row_lengths {conv : List Char → Option Int}
    {lines : List Line} {minrows : Nat} {uc : List Int} {d : List (List Int)}
    (h : load_data conv lines minrows (some uc) = .ok d) :
    ∀ row ∈ d, row.length = uc.length := by
  unfold load_data at h
  cases hs : scanBlock (fun ws => countcolumnsvalues conv (some uc) ws)
      (mincvOf (some uc)) minrows lines with
  | none =>
    rw [hs] at h
    intro row hrow
    have hd : [] = d := Except.ok.inj h
    rw [← hd] at hrow
    exact absurd hrow (by simp)
  | some c =>
    rw [hs] at h
    exact loadtxtM_row_lengths h

theorem resolveAll_length {resolve : List Char → Option Int} :
    ∀ {ts : List PyTok} {is : List Int},
      resolveAll resolve ts = some is → is.length = ts.length := by
  intro ts
  induction ts with
  | nil =>
    intro is h
    simp only [resolveAll, Option.some.injEq] at h
    subst h; rfl
  | cons t ts ih =>
    intro is h
    cases t with
    | int i =>
      simp only [resolveAll] at h
      cases hr : resolveAll resolve ts with
      | none => rw [hr] at h; exact absurd h (by simp)
      | some is' =>
        rw [hr] at h
        simp only [Option.map_some', Option.some.injEq] at h
        subst h
        simp [ih hr]
    | str s =>
      simp only [resolveAll] at h
      cases hv : resolve s with
      | none => rw [hv] at h; exact absurd h (by simp)
      | some i =>
        rw [hv] at h
        cases hr : resolveAll resolve ts with
        | none => rw [hr] at h; exact absurd h (by simp)
        | some is' =>
          rw [hr] at h
          simp only [Option.some.injEq] at h
          subst h
          simp [ih hr]

theorem foldl_set_length (v : PyTok) :
    ∀ (idxs : List Nat) (l : List PyTok),
      (idxs.foldl (fun acc i => acc.set i v) l).length = l.length := by
  intro idxs
  induction idxs with
  | nil => intro l; rfl
  | cons i is ih =>
    intro l
    simp only [List.foldl_cons]
    rw [ih (l.set i v), List.length_set]

theorem substDots_length (uc : List PyTok) :
    (substDots uc).length = uc.length :=
  foldl_set_length _ _ _

theorem dotindices_lt_length {uc : List PyTok} {j : Nat}
    (h : j ∈ dotindices uc) : j < uc.length := by
  obtain ⟨hlt, -⟩ := List.get?_eq_some.mp (mem_dotindices.mp h)
  exact hlt

theorem assignRowAux_get? (dotidx : List Nat) (r : Int) :
    ∀ (vs : List Int) (base k : Nat),
      (assignRowAux dotidx r vs base).get? k =
        (vs.get? k).map (fun v => if (base + k) ∈ dotidx then r else v) := by
  intro vs
  induction vs with
  | nil => intro base k; simp [assignRowAux]
  | cons v vs ih =>
    intro base k
    cases k with
    | zero => simp [assignRowAux]
    | succ k =>
      simp only [assignRowAux, List.get?_cons_succ]
      rw [ih (base + 1) k]
      have harith : base + 1 + k = base + (k + 1) := by omega
      rw [harith]

theorem assignDotsAux_col (dotidx : List Nat) (j : Nat) (hj : j ∈ dotidx) :
    ∀ (rows : List (List Int)) (r0 : Nat),
      (∀ row ∈ rows, j < row.length) →
      (assignDotsAux dotidx rows r0).map (fun row => row.get? j) =
        (List.range' r0 rows.length).map (fun k => some (Int.ofNat k)) := by
  intro rows
  induction rows with
  | nil => intro r0 _; simp [assignDotsAux]
  | cons row rows ih =>
    intro r0 hlen
    simp only [assignDotsAux, List.map_cons, List.length_cons,
      List.range'_succ]
    congr 1
    · rw [assignRowAux_get? dotidx (Int.ofNat r0) row 0 j]
      have hjr : j < row.length := hlen row (List.mem_cons_self _ _)
      rw [List.get?_eq_get hjr]
      simp [hj]
    · exact ih (r0 + 1) (fun row' h' => hlen row' (List.mem_cons_of_mem _ h'))

theorem assignDotsAux_length (dotidx : List Nat) :
    ∀ (rows : List (List Int)) (r0 : Nat),
      (assignDotsAux dotidx rows r0).length = rows.length := by
  intro rows
  induction rows with
  | nil => intro r0; rfl
  | cons row rows ih =>
    intro r0
    simp only [assignDotsAux, List.length_cons, ih (r0 + 1)]

/-- C6: along the explicit-`y` path of `_loadplotdata`, whenever the load
result is non-empty every column position requested with the row-index alias
`'.'` holds exactly the sequence `0, 1, ..., nrows-1`; in particular the
request `x = "1"`, `y = "."` on a 5-column block of 15 valid rows yields a
15×2 table whose second column is `0..14`. -/
theorem C6_alias_column_is_row_index :
    (∀ (conv resolve : List Char → Option Int) (lines : List Line)
       (xi yi : List PyTok) (d : List (List Int)) (j : Nat),
       j ∈ dotindices (xi ++ yi) →
       plotcore conv resolve lines xi yi = .ok d →
       d ≠ [] →
       colOf d j = (List.range d.length).map (fun k => some (Int.ofNat k))) ∧
    _loadplotdata convInt (fun _ => none)
        (List.replicate 15 ⟨[['1'], ['2'], ['3'], ['4'], ['5']], 10⟩)
        (PyColArg.str ['1']) (PyColArg.str ['.'])
      = .ok ((List.range 15).map (fun r => [(2 : Int), Int.ofNat r])) := by
  constructor
  · intro conv resolve lines xi yi d j hj hp hne
    unfold plotcore at hp
    cases hres : resolveAll resolve (substDots (xi ++ yi)) with
    | none => simp only [hres] at hp; exact Except.noConfusion hp
    | some ucInts =>
      simp only [hres] at hp
      cases hld : load_data conv lines 10 (some ucInts) with
      | error e => simp only [hld] at hp; exact Except.noConfusion hp
      | ok d0 =>
        simp only [hld] at hp
        by_cases hemp : d0.isEmpty
        · rw [if_pos hemp] at hp
          cases d0 with
          | nil => exact absurd (Except.ok.inj hp).symm hne
          | cons r rs => simp at hemp
        · rw [if_neg hemp] at hp
          have hd : d = assignDots d0 (dotindices (xi ++ yi)) :=
            (Except.ok.inj hp).symm
          subst hd
          have hjlt : j < (xi ++ yi).length := dotindices_lt_length hj
          have hrowlen : ∀ row ∈ d0, j < row.length := by
            intro row hrow
            have h1 := load_data_row_lengths hld row hrow
            have h2 := resolveAll_length hres
            have h3 := substDots_length (xi ++ yi)
            omega
          unfold assignDots colOf
          rw [assignDotsAux_col _ j hj d0 0 hrowlen]
          have hlen2 : (assignDotsAux (dotindices (xi ++ yi)) d0 0).length
              = d0.length := assignDotsAux_length _ _ _
          rw [hlen2, List.range_eq_range']
  · decide

/-- C6 witness: the scenario table itself — requested columns `[1, '.']`, the
alias at position 1 holds `0..14`. -/
theorem C6_alias_column_is_row_index_witness :
    colOf ((List.range 15).map (fun r => [(2 : Int), Int.ofNat r])) 1 =
      (List.range
          ((List.range 15).map (fun r => [(2 : Int), Int.ofNat r])).length).map
        (fun k => some (Int.ofNat k)) :=
  C6_alias_column_is_row_index.1 convInt (fun _ => none)
    (List.replicate 15 ⟨[['1'], ['2'], ['3'], ['4'], ['5']], 10⟩)
    [PyTok.int 1] [PyTok.str ['.']]
    ((List.range 15).map (fun r => [(2 : Int), Int.ofNat r])) 1
    (by decide) (by decide) (by decide)

end BGUtils
